import Mathlib

set_option maxHeartbeats 1000000

/-!
Verification development for the registry indexing and name derivation engine
of `generator2/src/lib.rs`.

The specification tree types mirror the `vk` (vk-parse) data model exactly as
the generator consumes it: only the fields and node kinds the generator reads
are carried, every other node kind is collapsed into an `other` constructor
that the generator's `match` arms ignore.

`BTreeMap<&str, V>` is embedded as an association list kept strictly sorted by
key (`SMap`), with `btInsert` performing the sorted last-write-wins insert.
`HashSet<&str>` is embedded as its list of insertions in arrival order
(`hsInsert` adds an element only when absent); Rust's `HashSet` gives no
iteration-order guarantee (iteration order depends on a per-instance random
hash seed), so a possible iteration order of the set is any permutation of its
contents (`hashIterPossible`).

Panics (`panic!`, `.expect`) are embedded as `Except.error` with the panic
message; the `?`-propagated I/O result of `File::create` is recorded in an
explicit effect trace instead (the file-system outcome itself is irrelevant to
every claim, the existence of the write is what matters).
-/

instance {ε α : Type} [DecidableEq ε] [DecidableEq α] : DecidableEq (Except ε α) := fun a b =>
  match a, b with
  | Except.error x, Except.error y =>
    if h : x = y then Decidable.isTrue (by rw [h])
    else Decidable.isFalse (fun hc => by cases hc; exact h rfl)
  | Except.ok x, Except.ok y =>
    if h : x = y then Decidable.isTrue (by rw [h])
    else Decidable.isFalse (fun hc => by cases hc; exact h rfl)
  | Except.error _, Except.ok _ => Decidable.isFalse (fun hc => Except.noConfusion hc)
  | Except.ok _, Except.error _ => Decidable.isFalse (fun hc => Except.noConfusion hc)

/-- A vendor tag node (`vk::Tag`); the generator reads only its `name`. -/
structure Tag where
  name : String
deriving DecidableEq

/-- Enumerant payload (`vk::EnumSpec`): `Value`, `Bitpos`, `Offset`, `Alias`
carry an `extends` target (the field is renamed `extendsTarget` because
`extends` is a Lean keyword); `Offset` carries it non-optionally. `None`
mirrors `vk::EnumSpec::None`. -/
inductive EnumSpec where
  | Value (value : String) (extendsTarget : Option String)
  | Bitpos (bitpos : Int) (extendsTarget : Option String)
  | Offset (offset : Int) (extnumber : Option Int) (extendsTarget : String) (dir : Bool)
  | Alias (aliasName : String) (extendsTarget : Option String)
  | None
deriving DecidableEq

/-- An enumerant (`vk::Enum`). -/
structure Enum where
  name : String
  spec : EnumSpec
deriving DecidableEq

/-- An enum group (`vk::Enums`): optional name, optional kind marker string,
and its child enumerants. -/
structure Enums where
  name : Option String
  kind : Option String
  children : List Enum
deriving DecidableEq

/-- A type node (`vk::Type`); named `VkType` because `Type` is reserved in
Lean. The generator only ever could key it by its declared name. -/
structure VkType where
  name : Option String
deriving DecidableEq

/-- An item inside an extension require block (`vk::InterfaceItem`): the
generator matches `Enum(e)` and ignores every other item kind. -/
inductive InterfaceItem where
  | enum (e : Enum)
  | other
deriving DecidableEq

/-- A child of an extension (`vk::ExtensionChild`): the generator matches
`Require { items, .. }` and ignores the rest. -/
inductive ExtensionChild where
  | require (items : List InterfaceItem)
  | other
deriving DecidableEq

/-- An extension (`vk::Extension`). -/
structure Extension where
  name : String
  children : List ExtensionChild
deriving DecidableEq

/-- A top-level registry child (`vk::RegistryChild`): the generator matches
`Tags`, `Enums` and `Extensions` (and never `Types`); everything else is
ignored and collapsed into `other`. -/
inductive RegistryChild where
  | tags (children : List Tag)
  | types (children : List VkType)
  | enums (groups : Enums)
  | extensions (children : List Extension)
  | other
deriving DecidableEq

/-- The root of the parsed specification tree (`vk::Registry(pub Vec<RegistryChild>)`). -/
structure Registry where
  children : List RegistryChild
deriving DecidableEq

/-- `EnumKind` from the source: `Bitflag | Enum | Constant`. -/
inductive EnumKind where
  | Bitflag
  | Enum
  | Constant
deriving DecidableEq

/-- A single-quote character as a string, used to reproduce the panic message
format string of `EnumKind::from_str` verbatim. -/
def squote : String := String.singleton (Char.ofNat 39)

/-- `EnumKind::from_str`: "bitmask" and "enum" map to their kinds, anything
else panics with a message naming the offending raw value; the panic is
embedded as `Except.error` carrying that exact message. -/
def EnumKind.from_str (s : String) : Except String EnumKind :=
  if s = "bitmask" then Except.ok EnumKind.Bitflag
  else if s = "enum" then Except.ok EnumKind.Enum
  else
    Except.error
      ("Unknown EnumKind, please add this to the generator: " ++ squote ++ s ++ squote)

/-- `EnumExt::enum_kind for vk::Enums`:
`self.kind.as_ref().map(|s| EnumKind::from_str(s)).unwrap_or(EnumKind::Constant)`. -/
def Enums.enum_kind (e : Enums) : Except String EnumKind :=
  match e.kind with
  | some s => EnumKind.from_str s
  | Option.none => Except.ok EnumKind.Constant

/-- `get_extends_from_enum`: Offset always yields its target, Value, Bitpos
and Alias yield their optional target, any other payload yields nothing. -/
def get_extends_from_enum (e : Enum) : Option String :=
  match e.spec with
  | EnumSpec.Alias _ ext => ext
  | EnumSpec.Bitpos _ ext => ext
  | EnumSpec.Value _ ext => ext
  | EnumSpec.Offset _ _ ext _ => some ext
  | EnumSpec.None => Option.none

/-- `ExtensionEnum<'spec>`: the aggregate for one extended enum group — the
representative extension name and the contributed enumerants in order. -/
structure ExtensionEnum where
  extension : String
  enums : List Enum
deriving DecidableEq

/-- Association-list embedding of `BTreeMap<&str, V>`; the list is kept
strictly sorted by key, so the list order IS the map's iteration order. -/
abbrev SMap (α : Type) := List (String × α)

/-- The keys of an `SMap`, in iteration order. -/
def skeys {α : Type} (m : SMap α) : List String := m.map Prod.fst

/-- Strict lexicographic order on char lists by codepoint, the order
`BTreeMap<&str, _>` iterates in: `Ord` for `&str` compares UTF-8 bytes
lexicographically, which for valid UTF-8 coincides with lexicographic
codepoint order. -/
def lexLtb : List Char → List Char → Bool
  | [], [] => false
  | [], _ :: _ => true
  | _ :: _, [] => false
  | a :: as, b :: bs =>
    if a.toNat < b.toNat then true
    else if b.toNat < a.toNat then false
    else lexLtb as bs

/-- The string order of the `BTreeMap<&str, _>` indices, see `lexLtb`. -/
def strLt (a b : String) : Prop := lexLtb a.data b.data = true

instance (a b : String) : Decidable (strLt a b) :=
  inferInstanceAs (Decidable (_ = true))

lemma lexLtb_irrefl : ∀ l : List Char, lexLtb l l = false := by
  intro l
  induction l with
  | nil => rfl
  | cons a t ih => simp [lexLtb, ih]

lemma lexLtb_trans :
    ∀ a b c : List Char, lexLtb a b = true → lexLtb b c = true → lexLtb a c = true := by
  intro a
  induction a with
  | nil =>
    intro b c hab hbc
    cases b with
    | nil => exact absurd hab (by simp [lexLtb])
    | cons y bs =>
      cases c with
      | nil => exact absurd hbc (by simp [lexLtb])
      | cons z cs => rfl
  | cons x as ih =>
    intro b c hab hbc
    cases b with
    | nil => exact absurd hab (by simp [lexLtb])
    | cons y bs =>
      cases c with
      | nil => exact absurd hbc (by simp [lexLtb])
      | cons z cs =>
        simp only [lexLtb] at hab hbc ⊢
        by_cases h1 : x.toNat < y.toNat
        · by_cases h2 : y.toNat < z.toNat
          · rw [if_pos (by omega)]
          · rw [if_neg h2] at hbc
            by_cases h3 : z.toNat < y.toNat
            · rw [if_pos h3] at hbc
              exact absurd hbc (by simp)
            · rw [if_pos (by omega)]
        · rw [if_neg h1] at hab
          by_cases h4 : y.toNat < x.toNat
          · rw [if_pos h4] at hab
            exact absurd hab (by simp)
          · rw [if_neg h4] at hab
            by_cases h2 : y.toNat < z.toNat
            · rw [if_pos (by omega)]
            · rw [if_neg h2] at hbc
              by_cases h3 : z.toNat < y.toNat
              · rw [if_pos h3] at hbc
                exact absurd hbc (by simp)
              · rw [if_neg h3] at hbc
                rw [if_neg (by omega), if_neg (by omega)]
                exact ih bs cs hab hbc

lemma lexLtb_eq_of_not :
    ∀ a b : List Char, lexLtb a b = false → lexLtb b a = false → a = b := by
  intro a
  induction a with
  | nil =>
    intro b hab _
    cases b with
    | nil => rfl
    | cons y bs => exact absurd hab (by simp [lexLtb])
  | cons x as ih =>
    intro b hab hba
    cases b with
    | nil => exact absurd hba (by simp [lexLtb])
    | cons y bs =>
      simp only [lexLtb] at hab hba
      by_cases h1 : x.toNat < y.toNat
      · rw [if_pos h1] at hab
        exact absurd hab (by simp)
      · by_cases h2 : y.toNat < x.toNat
        · rw [if_pos h2] at hba
          exact absurd hba (by simp)
        · rw [if_neg h1, if_neg h2] at hab
          rw [if_neg h2, if_neg h1] at hba
          have hnn : x.toNat = y.toNat := by omega
          have hxy : x = y := Char.ext (UInt32.toNat.inj hnn)
          subst hxy
          exact congrArg (x :: ·) (ih bs hab hba)

lemma strLt_trans {a b c : String} (h1 : strLt a b) (h2 : strLt b c) : strLt a c :=
  lexLtb_trans _ _ _ h1 h2

lemma strLt_irrefl (a : String) : ¬ strLt a a := by
  unfold strLt
  rw [lexLtb_irrefl]
  simp

lemma strLt_ne {a b : String} (h : strLt a b) : a ≠ b :=
  fun he => strLt_irrefl b (he ▸ h)

lemma strLt_connex {a b : String} (h1 : ¬ strLt a b) (h2 : ¬ strLt b a) : a = b := by
  have hab : lexLtb a.data b.data = false := by
    revert h1
    cases hx : lexLtb a.data b.data
    · intro _; rfl
    · intro h1; exact absurd hx h1
  have hba : lexLtb b.data a.data = false := by
    revert h2
    cases hx : lexLtb b.data a.data
    · intro _; rfl
    · intro h2; exact absurd hx h2
  exact congrArg String.mk (lexLtb_eq_of_not a.data b.data hab hba)

lemma strLt_of_not {a b : String} (h1 : ¬ strLt a b) (h2 : ¬ a = b) : strLt b a := by
  by_cases hh : strLt b a
  · exact hh
  · exact absurd (strLt_connex h1 hh) h2

/-- Strict key order on map entries (the `BTreeMap` iteration order). -/
def keyLt {α : Type} (a b : String × α) : Prop := strLt a.1 b.1

instance {α : Type} (a b : String × α) : Decidable (keyLt a b) :=
  inferInstanceAs (Decidable (strLt a.1 b.1))

instance {α : Type} : IsAntisymm (String × α) keyLt :=
  ⟨fun _ _ h1 h2 => absurd (strLt_trans h1 h2) (strLt_irrefl _)⟩

/-- `BTreeMap::insert` on the sorted association list: place the entry at its
key position, silently overwriting an equal key (last write wins). -/
def btInsert {α : Type} (k : String) (v : α) : SMap α → SMap α
  | [] => [(k, v)]
  | (k2, v2) :: t =>
    if strLt k k2 then (k, v) :: (k2, v2) :: t
    else if k = k2 then (k, v) :: t
    else (k2, v2) :: btInsert k v t

/-- `BTreeMap::get` on the association list. -/
def slookup {α : Type} (k : String) : SMap α → Option α
  | [] => Option.none
  | (k2, v) :: t => if k = k2 then some v else slookup k t

/-- Uncurried `btInsert`, the step function of the index-building folds. -/
def insPair {α : Type} (m : SMap α) (p : String × α) : SMap α := btInsert p.1 p.2 m

/-- `HashSet::insert`: add the element when absent (contents in arrival
order; the iteration order of the real container is unrelated to this list,
see `hashIterPossible`). -/
def hsInsert (t : String) (s : List String) : List String :=
  if t ∈ s then s else s ++ [t]

/-- Rust's `HashSet` promises no iteration order at all (per-instance random
seed), so a possible iteration order is any permutation of the contents. -/
def hashIterPossible (contents it : List String) : Prop := it.Perm contents

/-- `Context::collect_tags`: scan registry children, insert every tag name of
every `Tags` block into the tag set. -/
def collect_tags (r : Registry) : List String :=
  r.children.foldl
    (fun s c =>
      match c with
      | RegistryChild.tags ts => ts.foldl (fun s t => hsInsert t.name s) s
      | _ => s)
    []

/-- `Context::collect_extensions`: scan registry children, insert every
extension of every `Extensions` block by its declared name. -/
def collect_extensions (r : Registry) : SMap Extension :=
  r.children.foldl
    (fun m c =>
      match c with
      | RegistryChild.extensions es => es.foldl (fun m e => btInsert e.name e m) m
      | _ => m)
    []

/-- `Context::collect_enums`, whose `enums.name.as_ref().expect("Missing enum
name")` panic is embedded as an error: scan registry children, insert every
`Enums` block by its declared name, aborting when a block has no name. -/
def collect_enums_aux : SMap Enums → List RegistryChild → Except String (SMap Enums)
  | m, [] => Except.ok m
  | m, c :: rest =>
    match c with
    | RegistryChild.enums es =>
      match es.name with
      | some n => collect_enums_aux (btInsert n es m) rest
      | Option.none => Except.error "Missing enum name"
    | _ => collect_enums_aux m rest

/-- `Context::collect_enums`, entry point. -/
def collect_enums (r : Registry) : Except String (SMap Enums) :=
  collect_enums_aux [] r.children

/-- Innermost step of `Context::collect_extended_enums`: for an
`InterfaceItem::Enum(e)` with an extends target, `entry(extends).or_insert(
ExtensionEnum { extension: name, enums: vec![] })` then `enums.push(e)`;
`pushEE` is that combination on the sorted association list. -/
def pushEE (g : String) (extName : String) (e : Enum) :
    SMap ExtensionEnum → SMap ExtensionEnum
  | [] => [(g, ⟨extName, [e]⟩)]
  | (k, v) :: t =>
    if strLt g k then (g, ⟨extName, [e]⟩) :: (k, v) :: t
    else if g = k then (k, ⟨v.extension, v.enums ++ [e]⟩) :: t
    else (k, v) :: pushEE g extName e t

/-- One interface item of a require block, in `collect_extended_enums`. -/
def collect_extended_item (extName : String) (m : SMap ExtensionEnum)
    (item : InterfaceItem) : SMap ExtensionEnum :=
  match item with
  | InterfaceItem.enum e =>
    match get_extends_from_enum e with
    | some g => pushEE g extName e m
    | Option.none => m
  | InterfaceItem.other => m

/-- One extension child in `collect_extended_enums`: only `Require { items }`
contributes, in declaration order. -/
def collect_extended_child (extName : String) (m : SMap ExtensionEnum)
    (c : ExtensionChild) : SMap ExtensionEnum :=
  match c with
  | ExtensionChild.require items => items.foldl (collect_extended_item extName) m
  | ExtensionChild.other => m

/-- Processing of one `(name, extension)` entry of the extension index in
`collect_extended_enums`. -/
def processExt (m : SMap ExtensionEnum) (extName : String) (ext : Extension) :
    SMap ExtensionEnum :=
  ext.children.foldl (collect_extended_child extName) m

/-- `Context::collect_extended_enums`: iterate the (sorted) extension index in
order, then each extension's require blocks in declaration order. -/
def collect_extended_enums (extmap : SMap Extension) : SMap ExtensionEnum :=
  extmap.foldl (fun m p => processExt m p.1 p.2) []

/-- Side effects that `Context::from_registry` performs beyond populating the
indices, in program order: `File::create("enums.rs")` followed by
`crate::enums::write_enums(&ctx, &mut writer)` (the body of `write_enums`
lives in the crate's `enums` module and only writes into that file). -/
inductive Effect where
  | createFile (path : String)
  | writeEnums
deriving DecidableEq

/-- `Context<'spec>` from the source: the registry and the five indices. -/
structure Context where
  registry : Registry
  extension_by_name : SMap Extension
  type_by_name : SMap VkType
  enums_by_name : SMap Enums
  tags : List String
  extension_enums : SMap ExtensionEnum
deriving DecidableEq

/-- `Context::from_registry`: build the indices (note: nothing ever inserts
into `type_by_name`), then create `enums.rs` and write the generated enums
into it. The `expect` panic of `collect_enums` aborts the run (error); the
performed I/O is returned as an effect trace. -/
def from_registry (r : Registry) : Except String (Context × List Effect) :=
  match collect_enums r with
  | Except.error e => Except.error e
  | Except.ok ens =>
    let ext := collect_extensions r
    Except.ok
      ({ registry := r
         extension_by_name := ext
         type_by_name := []
         enums_by_name := ens
         tags := collect_tags r
         extension_enums := collect_extended_enums ext },
       [Effect.createFile "enums.rs", Effect.writeEnums])

/-- Modelled from the spec: the type-name prefix constant
`constants::TYPE_PREFIX` lives in the crate's `constants` module, which is not
among the provided sources; per the spec there is a single known type-name
prefix constant and its worked examples strip the prefix "Vk". -/
def TYPE_PREFIX : String := "Vk"

/-- One fuel-indexed step tower for `str::trim_start_matches`: while the
pattern is a prefix, drop it and continue. The fuel (always instantiated with
the string's length, which strictly exceeds the number of possible strips for
a non-empty pattern) only makes the recursion structural. -/
def trimAux (p : List Char) : Nat → List Char → List Char
  | 0, s => s
  | fuel + 1, s =>
    if p ≠ [] ∧ p.isPrefixOf s then trimAux p fuel (s.drop p.length) else s

/-- `str::trim_start_matches(pat)`: repeatedly removes the prefix `pat` from
the front until it no longer matches (for an empty pattern it is the
identity, matching Rust's empty-match semantics). -/
def trimStartMatchesL (p s : List Char) : List Char := trimAux p s.length s

/-- `Context::rust_type_name`: `name.trim_start_matches(constants::TYPE_PREFIX)`. -/
def rust_type_name (name : String) : String :=
  String.mk (trimStartMatchesL TYPE_PREFIX.data name.data)

/-- Modelled from the spec (refinement comparison only): `deriveTypeName(raw)`
as the spec words it — "strip a single known type-name prefix constant from
the front of raw, if present; otherwise return raw unchanged". -/
def derive_type_name_spec (raw : String) : String :=
  if TYPE_PREFIX.data.isPrefixOf raw.data then
    String.mk (raw.data.drop TYPE_PREFIX.data.length)
  else raw

/-- `Context::rust_bitflag_type_name`: prefix strip then replace every
"FlagBits" with "Flags". -/
def rust_bitflag_type_name (name : String) : String :=
  (rust_type_name name).replace "FlagBits" "Flags"

/-- Modelled from the spec: the source calls heck's `to_shouty_snake_case`
(an external dependency), which the spec describes as converting the owner
enum name "to upper-snake-case (a normalized token sequence separated by
underscores)". A new word starts where a lowercase letter or digit is
followed by an uppercase letter; all letters are uppercased. -/
def shoutyChars : Option Char → List Char → List Char
  | _, [] => []
  | prev, c :: rest =>
    let boundary :=
      match prev with
      | some p => (p.isLower || p.isDigit) && c.isUpper
      | Option.none => false
    if boundary then '_' :: c.toUpper :: shoutyChars (some c) rest
    else c.toUpper :: shoutyChars (some c) rest

/-- Entry point of the upper-snake-case conversion, see `shoutyChars`. -/
def to_shouty_snake_case (s : String) : String :=
  String.mk (shoutyChars Option.none s.data)

/-- Rust's `str::split('_')`: split on every underscore, keeping empty
segments ("" splits to [""]). -/
def split_on_underscore (s : String) : List String :=
  (s.data.splitOn '_').map String.mk

/-- The positional-diff stage of `rust_enum_variant_name`:
`zip(prefix.split('_').chain(repeat("")), variant_name.split('_'))` then keep
the right token of every differing pair. Appending `vtoks.length` empty
strings makes the left list at least as long as the right one, which is
exactly what zipping against the infinite `chain(repeat(""))` does. -/
def positional_keep (ptoks vtoks : List String) : List String :=
  (((ptoks ++ List.replicate vtoks.length "").zip vtoks).filter
      (fun p => p.1 != p.2)).map Prod.snd

/-- The claim's wording of the positional diff (refinement comparison only):
pad the prefix tokens with empty-string tokens on the right to the value
tokens' length, pair positionally, keep the value token of each differing
pair. -/
def positional_keep_spec (ptoks vtoks : List String) : List String :=
  (((ptoks ++ List.replicate (vtoks.length - ptoks.length) "").zip vtoks).filter
      (fun p => p.1 != p.2)).map Prod.snd

/-- The vendor-tag stripping stage of `rust_enum_variant_name`: drop the last
token when the name has more than one token and the last token is a known
tag. -/
def strip_vendor_tag (tags : List String) (l : List String) : List String :=
  match l.getLast? with
  | some ext => if 1 < l.length ∧ ext ∈ tags then l.dropLast else l
  | Option.none => l

/-- The "BIT" stripping stage of `rust_enum_variant_name`: drop the last
token when it is exactly "BIT". -/
def strip_bit (l : List String) : List String :=
  match l.getLast? with
  | some t => if t = "BIT" then l.dropLast else l
  | Option.none => l

/-- `Context::rust_enum_variant_name` (the `tags` argument is the context's
tag set): positional diff of the shouty-snake owner name against the raw
variant name, then vendor-tag strip, then "BIT" strip, then underscore
join. -/
def rust_enum_variant_name (tags : List String) (enum_name variant_name : String) : String :=
  let ptoks := split_on_underscore (to_shouty_snake_case enum_name)
  let vtoks := split_on_underscore variant_name
  let name_str := positional_keep ptoks vtoks
  let name_str := strip_vendor_tag tags name_str
  let name_str := strip_bit name_str
  String.intercalate "_" name_str

/-- n concatenated copies of a list (used to state what repeated prefix
stripping removes). -/
def repApp {α : Type} (p : List α) : Nat → List α
  | 0 => []
  | n + 1 => p ++ repApp p n

/-! ### Lemmas about the sorted-map embedding -/

lemma mem_btInsert {α : Type} (k : String) (v : α) :
    ∀ (m : SMap α) (x : String × α), x ∈ btInsert k v m → x = (k, v) ∨ x ∈ m := by
  intro m
  induction m with
  | nil =>
    intro x hx
    simp only [btInsert, List.mem_singleton] at hx
    exact Or.inl hx
  | cons p t ih =>
    intro x hx
    obtain ⟨k2, v2⟩ := p
    simp only [btInsert] at hx
    split at hx
    · rcases List.mem_cons.mp hx with h | h
      · exact Or.inl h
      · exact Or.inr h
    · split at hx
      · rcases List.mem_cons.mp hx with h | h
        · exact Or.inl h
        · exact Or.inr (List.mem_cons_of_mem _ h)
      · rcases List.mem_cons.mp hx with h | h
        · exact Or.inr (by simp [h])
        · rcases ih x h with h1 | h1
          · exact Or.inl h1
          · exact Or.inr (List.mem_cons_of_mem _ h1)

lemma btInsert_sorted {α : Type} (k : String) (v : α) :
    ∀ (m : SMap α), m.Pairwise keyLt → (btInsert k v m).Pairwise keyLt := by
  intro m
  induction m with
  | nil =>
    intro _
    simp [btInsert]
  | cons p t ih =>
    intro h
    obtain ⟨k2, v2⟩ := p
    rcases List.pairwise_cons.mp h with ⟨hhead, htail⟩
    simp only [btInsert]
    split
    next hlt =>
      refine List.pairwise_cons.mpr ⟨?_, h⟩
      intro x hx
      rcases List.mem_cons.mp hx with rfl | hx
      · exact hlt
      · exact strLt_trans hlt (hhead x hx)
    next hge =>
      split
      next heq =>
        subst heq
        refine List.pairwise_cons.mpr ⟨?_, htail⟩
        intro x hx
        exact hhead x hx
      next hne =>
        refine List.pairwise_cons.mpr ⟨?_, ih htail⟩
        intro x hx
        rcases mem_btInsert k v t x hx with rfl | hx
        · show strLt k2 k
          exact strLt_of_not hge hne
        · exact hhead x hx

lemma btInsert_perm {α : Type} (k : String) (v : α) :
    ∀ (m : SMap α), k ∉ skeys m → (btInsert k v m).Perm ((k, v) :: m) := by
  intro m
  induction m with
  | nil => intro _; simp [btInsert]
  | cons p t ih =>
    intro h
    obtain ⟨k2, v2⟩ := p
    have hne : k ≠ k2 := by
      intro he
      exact h (by simp [skeys, he])
    have hnt : k ∉ skeys t := by
      intro hmem
      apply h
      simp only [skeys, List.map_cons, List.mem_cons]
      exact Or.inr hmem
    by_cases hlt : strLt k k2
    · simp only [btInsert, if_pos hlt]
      exact List.Perm.refl _
    · simp only [btInsert, if_neg hlt, if_neg hne]
      exact ((ih hnt).cons _).trans (List.Perm.swap _ _ _)

lemma foldl_insPair_sorted {α : Type} :
    ∀ (l : SMap α) (m : SMap α), m.Pairwise keyLt → (l.foldl insPair m).Pairwise keyLt := by
  intro l
  induction l with
  | nil => intro m h; exact h
  | cons p t ih =>
    intro m h
    exact ih _ (btInsert_sorted p.1 p.2 m h)

lemma foldl_insPair_perm {α : Type} :
    ∀ (l : SMap α) (m : SMap α), (skeys m ++ l.map Prod.fst).Nodup →
      (l.foldl insPair m).Perm (m ++ l) := by
  intro l
  induction l with
  | nil => intro m _; simp
  | cons p t ih =>
    intro m h
    have hk : p.1 ∉ skeys m := by
      intro hmem
      rcases List.nodup_append.mp h with ⟨_, _, hdisj⟩
      exact hdisj hmem (by simp)
    have hperm1 : (insPair m p).Perm (p :: m) := by
      simpa [insPair] using btInsert_perm p.1 p.2 m hk
    have hkeys : (skeys (insPair m p) ++ t.map Prod.fst).Nodup := by
      have hmapped : (skeys (insPair m p)).Perm (p.1 :: skeys m) := by
        simpa [skeys] using hperm1.map Prod.fst
      refine ((hmapped.append_right _).nodup_iff).mpr ?_
      have hmid : (skeys m ++ p.1 :: t.map Prod.fst).Perm
          (p.1 :: (skeys m ++ t.map Prod.fst)) := List.perm_middle
      have h2 : (skeys m ++ p.1 :: t.map Prod.fst).Nodup := by simpa using h
      simpa using hmid.nodup_iff.mp h2
    have step : ((p :: t).foldl insPair m) = t.foldl insPair (insPair m p) := rfl
    rw [step]
    refine (ih _ hkeys).trans ?_
    refine (hperm1.append_right t).trans ?_
    simpa using (@List.perm_middle _ p m t).symm

lemma perm_flatMap {β γ : Type} (f : β → List γ) {l1 l2 : List β} (h : l1.Perm l2) :
    (l1.flatMap f).Perm (l2.flatMap f) := by
  induction h with
  | nil => exact List.Perm.refl _
  | cons x h ih => simpa [List.flatMap_cons] using ih.append_left (f x)
  | swap x y l =>
      simp only [List.flatMap_cons]
      rw [← List.append_assoc, ← List.append_assoc]
      exact (List.perm_append_comm).append_right _
  | trans h1 h2 ih1 ih2 => exact ih1.trans ih2

lemma foldl_insPair_eq_of_perm {α : Type} (l1 l2 : SMap α) (hp : l1.Perm l2)
    (h1 : (l1.map Prod.fst).Nodup) :
    l1.foldl insPair [] = l2.foldl insPair [] := by
  have h2 : (l2.map Prod.fst).Nodup := (hp.map Prod.fst).nodup_iff.mp h1
  have p1 : (l1.foldl insPair []).Perm l1 := by
    simpa using foldl_insPair_perm l1 [] (by simpa [skeys] using h1)
  have p2 : (l2.foldl insPair []).Perm l2 := by
    simpa using foldl_insPair_perm l2 [] (by simpa [skeys] using h2)
  have s1 : (l1.foldl insPair []).Pairwise keyLt := foldl_insPair_sorted l1 [] (by simp)
  have s2 : (l2.foldl insPair []).Pairwise keyLt := foldl_insPair_sorted l2 [] (by simp)
  exact List.eq_of_perm_of_sorted ((p1.trans hp).trans p2.symm) s1 s2

lemma foldl_hom_flat {β γ δ : Type} (f : β → List γ) (g : δ → γ → δ) :
    ∀ (l : List β) (init : δ),
      l.foldl (fun acc b => (f b).foldl g acc) init = (l.flatMap f).foldl g init := by
  intro l
  induction l with
  | nil => intro init; rfl
  | cons b t ih =>
    intro init
    simp only [List.foldl_cons, List.flatMap_cons, List.foldl_append]
    exact ih _

lemma my_foldl_congr {β δ : Type} (l : List β) (g1 g2 : δ → β → δ) (init : δ)
    (h : ∀ acc b, g1 acc b = g2 acc b) : l.foldl g1 init = l.foldl g2 init := by
  induction l generalizing init with
  | nil => rfl
  | cons b t ih => simp only [List.foldl_cons, h]; exact ih _

/-! ### The index-building scans as folds over extracted pair lists -/

/-- The `(name, extension)` pairs a registry child contributes to the
extension index. -/
def extPairsOf : RegistryChild → SMap Extension
  | RegistryChild.extensions es => es.map fun e => (e.name, e)
  | _ => []

/-- The `(name, enums)` pairs a registry child contributes to the enum-group
index (empty for an unnamed block, which `collect_enums` instead aborts on). -/
def enumPairsOf : RegistryChild → SMap Enums
  | RegistryChild.enums es =>
    match es.name with
    | some n => [(n, es)]
    | Option.none => []
  | _ => []

/-- The tag names a registry child contributes to the tag set. -/
def tagNamesOf : RegistryChild → List String
  | RegistryChild.tags ts => ts.map Tag.name
  | _ => []

lemma collect_extensions_eq (r : Registry) :
    collect_extensions r = (r.children.flatMap extPairsOf).foldl insPair [] := by
  unfold collect_extensions
  rw [my_foldl_congr r.children _ (fun m c => (extPairsOf c).foldl insPair m) []
    (by intro m c; cases c <;> simp [extPairsOf, insPair, List.foldl_map])]
  exact foldl_hom_flat extPairsOf insPair r.children []

lemma collect_enums_aux_ok_eq :
    ∀ (cs : List RegistryChild) (m v : SMap Enums), collect_enums_aux m cs = Except.ok v →
      v = (cs.flatMap enumPairsOf).foldl insPair m := by
  intro cs
  induction cs with
  | nil =>
    intro m v h
    simp only [collect_enums_aux] at h
    cases h
    rfl
  | cons c t ih =>
    intro m v h
    cases c with
    | enums es =>
      cases hn : es.name with
      | none =>
        simp only [collect_enums_aux, hn] at h
        exact Except.noConfusion h
      | some n =>
        simp only [collect_enums_aux, hn] at h
        have := ih _ _ h
        simp only [List.flatMap_cons, enumPairsOf, hn, List.foldl_append]
        exact this
    | tags ts =>
      simp only [collect_enums_aux] at h
      simpa [enumPairsOf] using ih _ _ h
    | types ts =>
      simp only [collect_enums_aux] at h
      simpa [enumPairsOf] using ih _ _ h
    | extensions es =>
      simp only [collect_enums_aux] at h
      simpa [enumPairsOf] using ih _ _ h
    | other =>
      simp only [collect_enums_aux] at h
      simpa [enumPairsOf] using ih _ _ h

lemma mem_hsInsert (x t : String) (s : List String) :
    x ∈ hsInsert t s ↔ x ∈ s ∨ x = t := by
  unfold hsInsert
  split
  next h =>
    constructor
    · exact Or.inl
    · rintro (hx | rfl)
      · exact hx
      · exact h
  next => simp

lemma mem_foldl_hsInsert :
    ∀ (l : List String) (s : List String) (x : String),
      x ∈ l.foldl (fun s t => hsInsert t s) s ↔ x ∈ s ∨ x ∈ l := by
  intro l
  induction l with
  | nil => intro s x; simp
  | cons a t ih =>
    intro s x
    simp only [List.foldl_cons, ih, mem_hsInsert, List.mem_cons]
    tauto

lemma mem_collect_tags (r : Registry) (x : String) :
    x ∈ collect_tags r ↔ x ∈ r.children.flatMap tagNamesOf := by
  unfold collect_tags
  rw [my_foldl_congr r.children _
      (fun s c => (tagNamesOf c).foldl (fun s t => hsInsert t s) s) []
    (by intro s c; cases c <;> simp [tagNamesOf, List.foldl_map])]
  rw [foldl_hom_flat tagNamesOf (fun s t => hsInsert t s) r.children []]
  simpa using mem_foldl_hsInsert (r.children.flatMap tagNamesOf) [] x

lemma from_registry_ok {r : Registry} {c : Context} {eff : List Effect}
    (h : from_registry r = Except.ok (c, eff)) :
    c.registry = r ∧ c.extension_by_name = collect_extensions r ∧
    c.type_by_name = [] ∧ collect_enums r = Except.ok c.enums_by_name ∧
    c.tags = collect_tags r ∧
    c.extension_enums = collect_extended_enums (collect_extensions r) ∧
    eff = [Effect.createFile "enums.rs", Effect.writeEnums] := by
  unfold from_registry at h
  cases hok : collect_enums r with
  | error e => rw [hok] at h; cases h
  | ok ens =>
    rw [hok] at h
    simp only [Except.ok.injEq, Prod.mk.injEq] at h
    obtain ⟨hc, heff⟩ := h
    subst hc
    subst heff
    exact ⟨rfl, rfl, rfl, rfl, rfl, rfl, rfl⟩

/-! ### C2 — the TypeIndex is never populated -/

/-- A registry declaring one top-level type child named "VkBuffer". -/
def rexTypes : Registry := ⟨[RegistryChild.types [⟨some "VkBuffer"⟩]]⟩

/-- The context `from_registry` builds for `rexTypes`. -/
def ctxTypes : Context := ⟨rexTypes, [], [], [], [], []⟩

/-- The effect trace of every successful `from_registry` run. -/
def outEffects : List Effect := [Effect.createFile "enums.rs", Effect.writeEnums]

/-- C2 counterexample: the claim says `type_by_name` maps every raw type name
declared among the registry's top-level type children to its node, but on a
registry declaring the type "VkBuffer" the successfully built context's
`type_by_name` does not map "VkBuffer" at all. -/
theorem type_index_not_populated_counterexample :
    RegistryChild.types [⟨some "VkBuffer"⟩] ∈ rexTypes.children ∧
    ((from_registry rexTypes).toOption.map fun p => slookup "VkBuffer" p.1.type_by_name) =
      some Option.none := by
  exact ⟨by decide, rfl⟩

/-- C2 (amended): after `Context::from_registry` succeeds, `type_by_name` is
empty — `from_registry` performs no scan over the registry's type children,
so the index maps no type name whatsoever. -/
theorem type_by_name_empty (r : Registry) (c : Context) (eff : List Effect)
    (h : from_registry r = Except.ok (c, eff)) : c.type_by_name = [] :=
  (from_registry_ok h).2.2.1

/-- Witness for C2's amended theorem at the concrete registry `rexTypes`. -/
theorem type_by_name_empty_witness :
    from_registry rexTypes = Except.ok (ctxTypes, outEffects) ∧ ctxTypes.type_by_name = [] :=
  ⟨rfl, type_by_name_empty rexTypes ctxTypes outEffects rfl⟩

/-! ### C3 — from_registry performs file I/O -/

/-- The empty registry. -/
def rexEmpty : Registry := ⟨[]⟩

/-- The context `from_registry` builds for the empty registry. -/
def ctxEmpty : Context := ⟨rexEmpty, [], [], [], [], []⟩

/-- C3 counterexample: the claim says building the Context performs no file
creation or writing, but even on the empty registry `from_registry` creates
the file "enums.rs" and writes the generated enums into it. -/
theorem from_registry_io_counterexample :
    ((from_registry rexEmpty).toOption.map fun p => p.2) = some outEffects ∧
    Effect.createFile "enums.rs" ∈ outEffects ∧ outEffects ≠ [] :=
  ⟨rfl, by decide, by decide⟩

/-- C3 (amended): besides populating the indices, every successful
`Context::from_registry` run performs exactly the I/O of creating the file
"enums.rs" and writing the generated enums into it. -/
theorem from_registry_effects (r : Registry) (c : Context) (eff : List Effect)
    (h : from_registry r = Except.ok (c, eff)) :
    eff = [Effect.createFile "enums.rs", Effect.writeEnums] :=
  (from_registry_ok h).2.2.2.2.2.2

/-- Witness for C3's amended theorem at the empty registry. -/
theorem from_registry_effects_witness :
    from_registry rexEmpty = Except.ok (ctxEmpty, outEffects) ∧
    outEffects = [Effect.createFile "enums.rs", Effect.writeEnums] :=
  ⟨rfl, from_registry_effects rexEmpty ctxEmpty outEffects rfl⟩

/-! ### C4 — rust_type_name strips the prefix repeatedly, not once -/

lemma trimAux_spec (p : List Char) (hp : p ≠ []) :
    ∀ (fuel : Nat) (s : List Char), s.length ≤ fuel →
      ¬ p <+: trimAux p fuel s ∧
      ∃ n : Nat, s = repApp p n ++ trimAux p fuel s := by
  intro fuel
  induction fuel with
  | zero =>
    intro s hs
    have hsnil : s = [] := List.eq_nil_of_length_eq_zero (Nat.le_zero.mp hs)
    subst hsnil
    refine ⟨?_, 0, rfl⟩
    intro hpre
    exact hp (List.prefix_nil.mp hpre)
  | succ fuel ih =>
    intro s hs
    by_cases hc : p ≠ [] ∧ p.isPrefixOf s
    · have hpre : p <+: s := List.isPrefixOf_iff_prefix.mp hc.2
      obtain ⟨t, ht⟩ := hpre
      have hdrop : s.drop p.length = t := by
        rw [← ht]
        exact List.drop_left p t
      have hlen : (s.drop p.length).length ≤ fuel := by
        have h1 : 0 < p.length := List.length_pos.mpr hp
        have h2 : (s.drop p.length).length = s.length - p.length := List.length_drop _ _
        have h3 : p.length ≤ s.length := by
          rw [← ht]
          simp
        omega
      have hstep : trimAux p (fuel + 1) s = trimAux p fuel (s.drop p.length) := by
        simp only [trimAux, if_pos hc]
      obtain ⟨hnp, n, hn⟩ := ih (s.drop p.length) hlen
      refine ⟨by rw [hstep]; exact hnp, n + 1, ?_⟩
      rw [hstep]
      calc s = p ++ t := ht.symm
        _ = p ++ s.drop p.length := by rw [hdrop]
        _ = p ++ (repApp p n ++ trimAux p fuel (s.drop p.length)) := by rw [← hn]
        _ = repApp p (n + 1) ++ trimAux p fuel (s.drop p.length) := by
              simp [repApp, List.append_assoc]
    · have hstep : trimAux p (fuel + 1) s = s := by
        simp only [trimAux, if_neg hc]
      rw [hstep]
      refine ⟨?_, 0, rfl⟩
      intro hpre
      exact hc ⟨hp, List.isPrefixOf_iff_prefix.mpr hpre⟩

/-- C4 counterexample: the claim says the type-name derivation strips a
SINGLE occurrence of the prefix, but `trim_start_matches` strips repeatedly:
on "VkVkSampler" the code yields "Sampler" while a single strip yields
"VkSampler". -/
theorem rust_type_name_strips_repeatedly_counterexample :
    rust_type_name "VkVkSampler" = "Sampler" ∧
    derive_type_name_spec "VkVkSampler" = "VkSampler" ∧
    rust_type_name "VkVkSampler" ≠ derive_type_name_spec "VkVkSampler" :=
  ⟨rfl, rfl, by decide⟩

/-- C4 (amended): `rust_type_name` strips EVERY leading repetition of the
type-name prefix (`trim_start_matches` removes the pattern repeatedly): the
result never starts with the prefix, the input is some number of prefix
copies followed by the result, and an input not starting with the prefix is
returned unchanged. -/
theorem rust_type_name_strips_all_leading (raw : String) :
    (¬ TYPE_PREFIX.data <+: (rust_type_name raw).data) ∧
    (¬ TYPE_PREFIX.data <+: raw.data → rust_type_name raw = raw) ∧
    ∃ n : Nat, raw.data = repApp TYPE_PREFIX.data n ++ (rust_type_name raw).data := by
  have hp : TYPE_PREFIX.data ≠ [] := by decide
  have h := trimAux_spec TYPE_PREFIX.data hp raw.data.length raw.data (le_refl _)
  refine ⟨h.1, ?_, h.2⟩
  intro hnp
  have heq : trimStartMatchesL TYPE_PREFIX.data raw.data = raw.data := by
    unfold trimStartMatchesL
    cases hl : raw.data.length with
    | zero => rfl
    | succ k =>
      simp only [trimAux]
      rw [if_neg]
      intro hcon
      exact hnp (List.isPrefixOf_iff_prefix.mp hcon.2)
  show String.mk (trimStartMatchesL TYPE_PREFIX.data raw.data) = raw
  rw [heq]

/-- Witness for C4's amended theorem at "VkVkSampler" (both prefix copies are
stripped) and at "Sampler" (no prefix, returned unchanged). -/
theorem rust_type_name_strips_all_leading_witness :
    (¬ TYPE_PREFIX.data <+: (rust_type_name "VkVkSampler").data) ∧
    rust_type_name "Sampler" = "Sampler" :=
  ⟨(rust_type_name_strips_all_leading "VkVkSampler").1,
   (rust_type_name_strips_all_leading "Sampler").2.1
     (by
       intro hcon
       have := List.isPrefixOf_iff_prefix.mpr hcon
       exact absurd this (by decide))⟩

/-! ### C7 / C10 — enum-kind classification -/

lemma from_str_ne (s : String) (h1 : s ≠ "bitmask") (h2 : s ≠ "enum") :
    EnumKind.from_str s = Except.error
      ("Unknown EnumKind, please add this to the generator: " ++ squote ++ s ++ squote) := by
  simp [EnumKind.from_str, h1, h2]

/-- C7: enum-kind classification: "bitmask" maps to Bitflag (the FlagSet),
"enum" to Enum (the Enumeration), an absent marker defaults to Constant (the
ConstantGroup), and any other non-empty marker aborts the run with a message
naming the offending raw value. -/
theorem enum_kind_classification (e : Enums) :
    (e.kind = some "bitmask" → e.enum_kind = Except.ok EnumKind.Bitflag) ∧
    (e.kind = some "enum" → e.enum_kind = Except.ok EnumKind.Enum) ∧
    (e.kind = Option.none → e.enum_kind = Except.ok EnumKind.Constant) ∧
    (∀ s : String, e.kind = some s → s ≠ "bitmask" → s ≠ "enum" → s ≠ "" →
      e.enum_kind = Except.error
        ("Unknown EnumKind, please add this to the generator: " ++ squote ++ s ++ squote)) := by
  refine ⟨?_, ?_, ?_, ?_⟩
  · intro h
    simp [Enums.enum_kind, h, EnumKind.from_str]
  · intro h
    simp [Enums.enum_kind, h, EnumKind.from_str]
  · intro h
    simp [Enums.enum_kind, h]
  · intro s h h1 h2 _
    simp only [Enums.enum_kind, h]
    exact from_str_ne s h1 h2

/-- Witness for C7 at the four marker shapes. -/
theorem enum_kind_classification_witness :
    Enums.enum_kind ⟨some "VkA", some "bitmask", []⟩ = Except.ok EnumKind.Bitflag ∧
    Enums.enum_kind ⟨some "VkB", some "enum", []⟩ = Except.ok EnumKind.Enum ∧
    Enums.enum_kind ⟨some "VkC", Option.none, []⟩ = Except.ok EnumKind.Constant ∧
    Enums.enum_kind ⟨some "VkD", some "weird", []⟩ = Except.error
      ("Unknown EnumKind, please add this to the generator: " ++ squote ++ "weird" ++ squote) :=
  ⟨(enum_kind_classification _).1 rfl,
   (enum_kind_classification _).2.1 rfl,
   (enum_kind_classification _).2.2.1 rfl,
   (enum_kind_classification _).2.2.2 "weird" rfl (by decide) (by decide) (by decide)⟩

/-- C10: a present-but-empty kind marker also aborts: `from_str` accepts only
the exact tokens "bitmask" and "enum" and errors on every other string
including "", and the Constant default applies only to an absent marker, not
to a present-but-empty one. -/
theorem empty_kind_marker_aborts :
    EnumKind.from_str "" = Except.error
      ("Unknown EnumKind, please add this to the generator: " ++ squote ++ "" ++ squote) ∧
    (∀ (n : Option String) (ch : List Enum),
      Enums.enum_kind ⟨n, some "", ch⟩ = Except.error
        ("Unknown EnumKind, please add this to the generator: " ++ squote ++ "" ++ squote)) ∧
    (∀ (n : Option String) (ch : List Enum),
      Enums.enum_kind ⟨n, Option.none, ch⟩ = Except.ok EnumKind.Constant) ∧
    (∀ (s : String) (k : EnumKind), EnumKind.from_str s = Except.ok k →
      (s = "bitmask" ∧ k = EnumKind.Bitflag) ∨ (s = "enum" ∧ k = EnumKind.Enum)) := by
  refine ⟨by decide, ?_, ?_, ?_⟩
  · intro n ch
    simp only [Enums.enum_kind]
    decide
  · intro n ch
    simp [Enums.enum_kind]
  · intro s k h
    by_cases hb : s = "bitmask"
    · subst hb
      have hh : EnumKind.from_str "bitmask" = Except.ok EnumKind.Bitflag := by decide
      rw [hh] at h
      injection h with h2
      exact Or.inl ⟨rfl, h2.symm⟩
    · by_cases he : s = "enum"
      · subst he
        have hh : EnumKind.from_str "enum" = Except.ok EnumKind.Enum := by decide
        rw [hh] at h
        injection h with h2
        exact Or.inr ⟨rfl, h2.symm⟩
      · rw [from_str_ne s hb he] at h
        exact Except.noConfusion h

/-- Witness for C10's only hypothesis-bearing conjunct, at "bitmask". -/
theorem empty_kind_marker_aborts_witness :
    ("bitmask" = "bitmask" ∧ EnumKind.Bitflag = EnumKind.Bitflag) ∨
    ("bitmask" = "enum" ∧ EnumKind.Bitflag = EnumKind.Enum) :=
  empty_kind_marker_aborts.2.2.2 "bitmask" EnumKind.Bitflag (by decide)

/-! ### C8 — extends-target extraction -/

/-- C8: `get_extends_from_enum` returns the target always for an Offset
payload, returns exactly the optionally declared target for Value, Bitpos and
Alias payloads, and returns nothing for any other payload. -/
theorem get_extends_spec :
    (∀ (nm : String) (o : Int) (en : Option Int) (ex : String) (d : Bool),
      get_extends_from_enum ⟨nm, EnumSpec.Offset o en ex d⟩ = some ex) ∧
    (∀ (nm v : String) (ex : Option String),
      get_extends_from_enum ⟨nm, EnumSpec.Value v ex⟩ = ex) ∧
    (∀ (nm : String) (b : Int) (ex : Option String),
      get_extends_from_enum ⟨nm, EnumSpec.Bitpos b ex⟩ = ex) ∧
    (∀ (nm an : String) (ex : Option String),
      get_extends_from_enum ⟨nm, EnumSpec.Alias an ex⟩ = ex) ∧
    (∀ nm : String, get_extends_from_enum ⟨nm, EnumSpec.None⟩ = Option.none) :=
  ⟨fun _ _ _ _ _ => rfl, fun _ _ _ => rfl, fun _ _ _ => rfl, fun _ _ _ => rfl, fun _ => rfl⟩

/-! ### C5 / C6 — variant name derivation -/

lemma zip_pad_eq (l r : List String) (n m : Nat) (hn : r.length ≤ l.length + n)
    (hm : r.length ≤ l.length + m) :
    (l ++ List.replicate n "").zip r = (l ++ List.replicate m "").zip r := by
  apply List.ext_getElem
  · simp only [List.length_zip, List.length_append, List.length_replicate]
    omega
  · intro i h1 h2
    have hir : i < r.length := by
      simp only [List.length_zip, List.length_append, List.length_replicate] at h1
      omega
    rw [List.getElem_zip, List.getElem_zip]
    congr 1
    by_cases hil : i < l.length
    · rw [List.getElem_append_left hil, List.getElem_append_left hil]
    · have hl : l.length ≤ i := le_of_not_lt hil
      rw [List.getElem_append_right hl, List.getElem_append_right hl,
        List.getElem_replicate, List.getElem_replicate]

lemma positional_keep_eq_spec (ptoks vtoks : List String) :
    positional_keep ptoks vtoks = positional_keep_spec ptoks vtoks := by
  unfold positional_keep positional_keep_spec
  rw [zip_pad_eq ptoks vtoks vtoks.length (vtoks.length - ptoks.length) (by omega) (by omega)]

lemma strip_vendor_tag_singleton (ts : List String) (x : String) :
    strip_vendor_tag ts [x] = [x] := by
  have hlast : ([x] : List String).getLast? = some x := rfl
  simp only [strip_vendor_tag, hlast]
  rw [if_neg]
  rintro ⟨hlt, _⟩
  simp at hlt

/-- C5: the positional-diff stage of `rust_enum_variant_name` pairs the value
tokens against the prefix tokens padded on the right with empty-string tokens
(only the prefix side is ever padded) and keeps exactly those value tokens
whose paired prefix token differs, in original order — the code's diff equals
the claim's padded-pairing description on all token sequences — and
`rust_enum_variant_name("VkImageType", "VK_IMAGE_TYPE_2D") = "2D"` under
every tag set. -/
theorem positional_diff_matches_spec :
    (∀ ptoks vtoks : List String,
      positional_keep ptoks vtoks = positional_keep_spec ptoks vtoks) ∧
    (∀ tags : List String,
      rust_enum_variant_name tags "VkImageType" "VK_IMAGE_TYPE_2D" = "2D") := by
  refine ⟨positional_keep_eq_spec, ?_⟩
  intro tags
  show String.intercalate "_"
      (strip_bit (strip_vendor_tag tags
        (positional_keep (split_on_underscore (to_shouty_snake_case "VkImageType"))
          (split_on_underscore "VK_IMAGE_TYPE_2D")))) = "2D"
  have h1 : positional_keep (split_on_underscore (to_shouty_snake_case "VkImageType"))
      (split_on_underscore "VK_IMAGE_TYPE_2D") = ["2D"] := by decide
  rw [h1, strip_vendor_tag_singleton]
  decide

/-- C6: after the positional diff, the trailing token is dropped when it is a
member of the vendor tag set and more than one token remains (a single-token
name equal to a tag is NOT stripped); then the possibly tag-stripped trailing
token is dropped when it equals "BIT"; at most one tag token and one "BIT"
token are removed, only trailing tokens are removed (the result is a prefix
of the input, at most two tokens shorter), and an empty input passes through
unchanged. -/
theorem variant_suffix_stripping_spec (tags : List String) (l : List String) :
    (∀ t, l.getLast? = some t → t ∈ tags → 1 < l.length →
      strip_vendor_tag tags l = l.dropLast) ∧
    (∀ t, l = [t] → strip_vendor_tag tags l = l) ∧
    ((strip_vendor_tag tags l).getLast? = some "BIT" →
      strip_bit (strip_vendor_tag tags l) = (strip_vendor_tag tags l).dropLast) ∧
    (strip_bit (strip_vendor_tag tags l)) <+: l ∧
    l.length ≤ (strip_bit (strip_vendor_tag tags l)).length + 2 ∧
    (l = [] → strip_bit (strip_vendor_tag tags l) = []) := by
  have hcases1 : strip_vendor_tag tags l = l ∨ strip_vendor_tag tags l = l.dropLast := by
    unfold strip_vendor_tag
    cases hl : l.getLast? with
    | none => exact Or.inl rfl
    | some t =>
      show (if 1 < l.length ∧ t ∈ tags then l.dropLast else l) = l ∨
        (if 1 < l.length ∧ t ∈ tags then l.dropLast else l) = l.dropLast
      by_cases hc : 1 < l.length ∧ t ∈ tags
      · rw [if_pos hc]
        exact Or.inr rfl
      · rw [if_neg hc]
        exact Or.inl rfl
  have hcases2 : ∀ m : List String, strip_bit m = m ∨ strip_bit m = m.dropLast := by
    intro m
    unfold strip_bit
    cases hm : m.getLast? with
    | none => exact Or.inl rfl
    | some t =>
      show (if t = "BIT" then m.dropLast else m) = m ∨
        (if t = "BIT" then m.dropLast else m) = m.dropLast
      by_cases hc : t = "BIT"
      · rw [if_pos hc]
        exact Or.inr rfl
      · rw [if_neg hc]
        exact Or.inl rfl
  refine ⟨?_, ?_, ?_, ?_, ?_, ?_⟩
  · intro t h1 h2 h3
    simp only [strip_vendor_tag, h1]
    rw [if_pos ⟨h3, h2⟩]
  · intro t h
    subst h
    exact strip_vendor_tag_singleton tags t
  · intro h
    simp [strip_bit, h]
  · rcases hcases1 with h1 | h1 <;> rcases hcases2 (strip_vendor_tag tags l) with h2 | h2
    · rw [h2, h1]
    · rw [h2, h1]
      exact List.dropLast_prefix l
    · rw [h2, h1]
      exact List.dropLast_prefix l
    · rw [h2, h1]
      exact (List.dropLast_prefix _).trans (List.dropLast_prefix l)
  · rcases hcases1 with h1 | h1 <;> rcases hcases2 (strip_vendor_tag tags l) with h2 | h2
    · rw [h2, h1]
      omega
    · rw [h2, h1, List.length_dropLast]
      omega
    · rw [h2, h1, List.length_dropLast]
      omega
    · rw [h2, h1, List.length_dropLast, List.length_dropLast]
      omega
  · intro h
    subst h
    rfl

/-- Witness for C6: a two-token name loses its trailing tag, a one-token name
equal to a tag is kept, and a tag-then-"BIT" suffix loses both. -/
theorem variant_suffix_stripping_spec_witness :
    strip_vendor_tag ["NV"] ["RAY", "NV"] = ["RAY"] ∧
    strip_vendor_tag ["NV"] ["NV"] = ["NV"] ∧
    strip_bit (strip_vendor_tag ["NV"] ["RAY", "BIT", "NV"]) = ["RAY"] := by
  have h1 := (variant_suffix_stripping_spec ["NV"] ["RAY", "NV"]).1 "NV" rfl
    (by decide) (by decide)
  have h2 := (variant_suffix_stripping_spec ["NV"] ["NV"]).2.1 "NV" rfl
  have h3 := (variant_suffix_stripping_spec ["NV"] ["RAY", "BIT", "NV"]).1 "NV" rfl
    (by decide) (by decide)
  have h4 := (variant_suffix_stripping_spec ["NV"] ["RAY", "BIT", "NV"]).2.2.1
  refine ⟨by rw [h1]; rfl, h2, ?_⟩
  rw [h4 (by rw [h3]; rfl), h3]
  rfl

/-! ### C9 — extension enum aggregation -/

/-- The contribution of one require-block item to the aggregate of group `g`. -/
def item_contrib (g : String) (item : InterfaceItem) : Option Enum :=
  match item with
  | InterfaceItem.enum e =>
    if get_extends_from_enum e = some g then some e else Option.none
  | InterfaceItem.other => Option.none

/-- The contributions of one extension child to the aggregate of group `g`,
in declaration order. -/
def child_contribs (g : String) (c : ExtensionChild) : List Enum :=
  match c with
  | ExtensionChild.require items => items.filterMap (item_contrib g)
  | ExtensionChild.other => []

/-- The contributions of a whole extension to the aggregate of group `g`, in
declaration order. -/
def ext_contribs (g : String) (ext : Extension) : List Enum :=
  ext.children.flatMap (child_contribs g)

/-- How one extension's contribution list updates a group's aggregate: no
contribution leaves it alone, otherwise the enumerants are appended, the
aggregate being created (with this extension as representative) on first
sight. -/
def addContribs (o : Option ExtensionEnum) (extName : String) (l : List Enum) :
    Option ExtensionEnum :=
  match l with
  | [] => o
  | _ =>
    match o with
    | some v => some ⟨v.extension, v.enums ++ l⟩
    | Option.none => some ⟨extName, l⟩

lemma mem_pushEE (g extName : String) (e : Enum) :
    ∀ (m : SMap ExtensionEnum) (x : String × ExtensionEnum),
      x ∈ pushEE g extName e m → x.1 = g ∨ x ∈ m := by
  intro m
  induction m with
  | nil =>
    intro x hx
    simp only [pushEE, List.mem_singleton] at hx
    subst hx
    exact Or.inl rfl
  | cons p t ih =>
    intro x hx
    obtain ⟨k, v⟩ := p
    by_cases h1 : strLt g k
    · simp only [pushEE, if_pos h1] at hx
      rcases List.mem_cons.mp hx with rfl | hx
      · exact Or.inl rfl
      · exact Or.inr hx
    · by_cases h2 : g = k
      · simp only [pushEE, if_neg h1, if_pos h2] at hx
        rcases List.mem_cons.mp hx with rfl | hx
        · exact Or.inl h2.symm
        · exact Or.inr (List.mem_cons_of_mem _ hx)
      · simp only [pushEE, if_neg h1, if_neg h2] at hx
        rcases List.mem_cons.mp hx with rfl | hx
        · exact Or.inr (List.mem_cons_self _ _)
        · rcases ih x hx with h | h
          · exact Or.inl h
          · exact Or.inr (List.mem_cons_of_mem _ h)

lemma pushEE_sorted (g extName : String) (e : Enum) :
    ∀ (m : SMap ExtensionEnum), m.Pairwise keyLt → (pushEE g extName e m).Pairwise keyLt := by
  intro m
  induction m with
  | nil => intro _; simp [pushEE]
  | cons p t ih =>
    intro h
    obtain ⟨k, v⟩ := p
    rcases List.pairwise_cons.mp h with ⟨hhead, htail⟩
    by_cases h1 : strLt g k
    · simp only [pushEE, if_pos h1]
      refine List.pairwise_cons.mpr ⟨?_, h⟩
      intro x hx
      rcases List.mem_cons.mp hx with rfl | hx
      · exact h1
      · exact strLt_trans h1 (hhead x hx)
    · by_cases h2 : g = k
      · simp only [pushEE, if_neg h1, if_pos h2]
        refine List.pairwise_cons.mpr ⟨?_, htail⟩
        intro x hx
        exact hhead x hx
      · simp only [pushEE, if_neg h1, if_neg h2]
        refine List.pairwise_cons.mpr ⟨?_, ih htail⟩
        intro x hx
        rcases mem_pushEE g extName e t x hx with hg | hx
        · show strLt k x.1
          rw [hg]
          exact strLt_of_not h1 h2
        · exact hhead x hx

lemma slookup_eq_none_of_forall_lt {α : Type} (g : String) :
    ∀ (m : SMap α), (∀ p ∈ m, strLt g p.1) → slookup g m = Option.none := by
  intro m
  induction m with
  | nil => intro _; rfl
  | cons p t ih =>
    intro h
    obtain ⟨k, v⟩ := p
    have hne : g ≠ k := strLt_ne (h (k, v) (List.mem_cons_self _ _))
    show (if g = k then some v else slookup g t) = Option.none
    rw [if_neg hne]
    exact ih (fun q hq => h q (List.mem_cons_of_mem _ hq))

lemma slookup_pushEE (g extName : String) (e : Enum) :
    ∀ (m : SMap ExtensionEnum), m.Pairwise keyLt → ∀ g2 : String,
      slookup g2 (pushEE g extName e m) =
        if g2 = g then
          match slookup g m with
          | some v => some ⟨v.extension, v.enums ++ [e]⟩
          | Option.none => some ⟨extName, [e]⟩
        else slookup g2 m := by
  intro m
  induction m with
  | nil =>
    intro _ g2
    show (if g2 = g then some (⟨extName, [e]⟩ : ExtensionEnum) else Option.none) = _
    by_cases h : g2 = g
    · rw [if_pos h, if_pos h]
      rfl
    · rw [if_neg h, if_neg h]
      rfl
  | cons p t ih =>
    intro hs g2
    obtain ⟨k, v⟩ := p
    rcases List.pairwise_cons.mp hs with ⟨hhead, htail⟩
    by_cases h1 : strLt g k
    · have hnone : slookup g ((k, v) :: t) = Option.none := by
        apply slookup_eq_none_of_forall_lt
        intro q hq
        rcases List.mem_cons.mp hq with rfl | hq
        · exact h1
        · exact strLt_trans h1 (hhead q hq)
      simp only [pushEE, if_pos h1]
      show (if g2 = g then some (⟨extName, [e]⟩ : ExtensionEnum)
          else slookup g2 ((k, v) :: t)) = _
      rw [hnone]
    · by_cases h2 : g = k
      · subst h2
        simp only [pushEE, if_neg h1, if_pos rfl]
        show (if g2 = g then some (⟨v.extension, v.enums ++ [e]⟩ : ExtensionEnum)
            else slookup g2 t) = _
        have hg : slookup g ((g, v) :: t) = some v := by
          show (if g = g then some v else slookup g t) = some v
          rw [if_pos rfl]
        rw [hg]
        by_cases h3 : g2 = g
        · rw [if_pos h3, if_pos h3]
        · rw [if_neg h3, if_neg h3]
          show slookup g2 t = (if g2 = g then some v else slookup g2 t)
          rw [if_neg h3]
      · simp only [pushEE, if_neg h1, if_neg h2]
        show (if g2 = k then some v else slookup g2 (pushEE g extName e t)) = _
        have hR : slookup g ((k, v) :: t) = slookup g t := by
          show (if g = k then some v else slookup g t) = slookup g t
          rw [if_neg h2]
        rw [hR, ih htail g2]
        by_cases h3 : g2 = k
        · have h4 : g2 ≠ g := by
            intro hce
            exact h2 (hce ▸ h3)
          rw [if_pos h3, if_neg h4]
          show some v = (if g2 = k then some v else slookup g2 t)
          rw [if_pos h3]
        · rw [if_neg h3]
          by_cases h4 : g2 = g
          · rw [if_pos h4, if_pos h4]
          · rw [if_neg h4, if_neg h4]
            show slookup g2 t = (if g2 = k then some v else slookup g2 t)
            rw [if_neg h3]

lemma addContribs_some (v : ExtensionEnum) (n : String) (c : List Enum) :
    addContribs (some v) n c = some ⟨v.extension, v.enums ++ c⟩ := by
  cases c with
  | nil => simp [addContribs]
  | cons a t => rfl

lemma addContribs_append (o : Option ExtensionEnum) (n : String) (l1 l2 : List Enum) :
    addContribs (addContribs o n l1) n l2 = addContribs o n (l1 ++ l2) := by
  cases o with
  | some v => rw [addContribs_some, addContribs_some, addContribs_some, List.append_assoc]
  | none =>
    cases l1 with
    | nil => rfl
    | cons a t =>
      rw [show addContribs Option.none n (a :: t) = some ⟨n, a :: t⟩ from rfl,
        addContribs_some]
      rfl

lemma slookup_items_fold (extName g : String) :
    ∀ (items : List InterfaceItem) (m : SMap ExtensionEnum), m.Pairwise keyLt →
      slookup g (items.foldl (collect_extended_item extName) m) =
        addContribs (slookup g m) extName (items.filterMap (item_contrib g)) ∧
      (items.foldl (collect_extended_item extName) m).Pairwise keyLt := by
  intro items
  induction items with
  | nil =>
    intro m hs
    exact ⟨rfl, hs⟩
  | cons it t ih =>
    intro m hs
    cases it with
    | other =>
      have hstep : collect_extended_item extName m InterfaceItem.other = m := rfl
      have hc : item_contrib g InterfaceItem.other = Option.none := rfl
      simp only [List.foldl_cons, hstep, List.filterMap_cons, hc]
      exact ih m hs
    | enum e =>
      cases hx : get_extends_from_enum e with
      | none =>
        have hstep : collect_extended_item extName m (InterfaceItem.enum e) = m := by
          simp [collect_extended_item, hx]
        have hc : item_contrib g (InterfaceItem.enum e) = Option.none := by
          simp [item_contrib, hx]
        simp only [List.foldl_cons, hstep, List.filterMap_cons, hc]
        exact ih m hs
      | some g2 =>
        have hstep : collect_extended_item extName m (InterfaceItem.enum e) =
            pushEE g2 extName e m := by
          simp [collect_extended_item, hx]
        by_cases hgg : g2 = g
        · subst hgg
          have hc : item_contrib g2 (InterfaceItem.enum e) = some e := by
            simp [item_contrib, hx]
          simp only [List.foldl_cons, hstep, List.filterMap_cons, hc]
          obtain ⟨ih1, ih2⟩ := ih (pushEE g2 extName e m) (pushEE_sorted g2 extName e m hs)
          refine ⟨?_, ih2⟩
          rw [ih1, slookup_pushEE g2 extName e m hs g2, if_pos rfl]
          cases hm : slookup g2 m with
          | none =>
            rw [addContribs_some]
            rfl
          | some v =>
            rw [addContribs_some, addContribs_some, List.append_assoc]
            rfl
        · have hc : item_contrib g (InterfaceItem.enum e) = Option.none := by
            simp [item_contrib, hx, hgg]
          simp only [List.foldl_cons, hstep, List.filterMap_cons, hc]
          obtain ⟨ih1, ih2⟩ := ih (pushEE g2 extName e m) (pushEE_sorted g2 extName e m hs)
          refine ⟨?_, ih2⟩
          rw [ih1, slookup_pushEE g2 extName e m hs g,
            if_neg (fun hce => hgg hce.symm)]

lemma slookup_child_fold (extName g : String) :
    ∀ (cs : List ExtensionChild) (m : SMap ExtensionEnum), m.Pairwise keyLt →
      slookup g (cs.foldl (collect_extended_child extName) m) =
        addContribs (slookup g m) extName (cs.flatMap (child_contribs g)) ∧
      (cs.foldl (collect_extended_child extName) m).Pairwise keyLt := by
  intro cs
  induction cs with
  | nil => intro m hs; exact ⟨rfl, hs⟩
  | cons c t ih =>
    intro m hs
    cases c with
    | other =>
      have h1 : collect_extended_child extName m ExtensionChild.other = m := rfl
      have h2 : child_contribs g ExtensionChild.other = [] := rfl
      simp only [List.foldl_cons, List.flatMap_cons, h1, h2, List.nil_append]
      exact ih m hs
    | require items =>
      have h1 : collect_extended_child extName m (ExtensionChild.require items) =
          items.foldl (collect_extended_item extName) m := rfl
      have h2 : child_contribs g (ExtensionChild.require items) =
          items.filterMap (item_contrib g) := rfl
      simp only [List.foldl_cons, List.flatMap_cons, h1, h2]
      obtain ⟨hl, hsorted⟩ := slookup_items_fold extName g items m hs
      obtain ⟨ihl, ihs⟩ := ih _ hsorted
      refine ⟨?_, ihs⟩
      rw [ihl, hl, addContribs_append]

lemma slookup_extfold (g : String) :
    ∀ (l : SMap Extension) (m : SMap ExtensionEnum), m.Pairwise keyLt →
      slookup g (l.foldl (fun m p => processExt m p.1 p.2) m) =
        l.foldl (fun o p => addContribs o p.1 (ext_contribs g p.2)) (slookup g m) ∧
      (l.foldl (fun m p => processExt m p.1 p.2) m).Pairwise keyLt := by
  intro l
  induction l with
  | nil => intro m hs; exact ⟨rfl, hs⟩
  | cons p t ih =>
    intro m hs
    have hpe : processExt m p.1 p.2 = p.2.children.foldl (collect_extended_child p.1) m := rfl
    simp only [List.foldl_cons, hpe]
    obtain ⟨hl, hsorted⟩ := slookup_child_fold p.1 g p.2.children m hs
    obtain ⟨ihl, ihs⟩ := ih _ hsorted
    refine ⟨?_, ihs⟩
    rw [ihl, hl]
    rfl

lemma foldl_addContribs_some (g : String) :
    ∀ (l : SMap Extension) (v : ExtensionEnum),
      l.foldl (fun o p => addContribs o p.1 (ext_contribs g p.2)) (some v) =
        some ⟨v.extension, v.enums ++ l.flatMap (fun p => ext_contribs g p.2)⟩ := by
  intro l
  induction l with
  | nil =>
    intro v
    simp
  | cons p t ih =>
    intro v
    simp only [List.foldl_cons, List.flatMap_cons, addContribs_some]
    rw [ih]
    simp [List.append_assoc]

lemma foldl_addContribs_none (g : String) :
    ∀ (l : SMap Extension),
      l.foldl (fun o p => addContribs o p.1 (ext_contribs g p.2)) Option.none =
        (match l.find? (fun p => !(ext_contribs g p.2).isEmpty) with
         | some q => some (⟨q.1, l.flatMap fun p => ext_contribs g p.2⟩ : ExtensionEnum)
         | Option.none => Option.none) := by
  intro l
  induction l with
  | nil => rfl
  | cons p t ih =>
    simp only [List.foldl_cons, List.flatMap_cons]
    cases hc : ext_contribs g p.2 with
    | nil =>
      rw [show addContribs Option.none p.1 ([] : List Enum) = Option.none from rfl, ih,
        List.find?_cons_of_neg _ (by simp [hc])]
      cases t.find? (fun p => !(ext_contribs g p.2).isEmpty) with
      | none => rfl
      | some q => simp
    | cons a rest =>
      rw [show addContribs Option.none p.1 (a :: rest) = some ⟨p.1, a :: rest⟩ from rfl,
        foldl_addContribs_some, List.find?_cons_of_pos _ (by simp [hc])]

/-- C9: the extension-enum aggregation iterates the sorted extension index in
order and require blocks in declaration order; for every group name `g`, the
aggregate for `g` exists exactly when some indexed extension contributes an
enumerant extending `g`, its enumerant list is the concatenation of all
contributions in sorted extension-index order (declaration order within an
extension), and its representative extension is the first contributor in that
order. -/
theorem extension_enum_aggregation_spec (r : Registry) (c : Context) (eff : List Effect)
    (g : String) (h : from_registry r = Except.ok (c, eff)) :
    c.extension_by_name.Pairwise keyLt ∧
    slookup g c.extension_enums =
      (match c.extension_by_name.find? (fun p => !(ext_contribs g p.2).isEmpty) with
       | some q =>
         some (⟨q.1, c.extension_by_name.flatMap fun p => ext_contribs g p.2⟩ : ExtensionEnum)
       | Option.none => Option.none) := by
  obtain ⟨-, hext, -, -, -, hee, -⟩ := from_registry_ok h
  have hsorted : (collect_extensions r).Pairwise keyLt := by
    rw [collect_extensions_eq]
    exact foldl_insPair_sorted _ [] (by simp)
  refine ⟨by rw [hext]; exact hsorted, ?_⟩
  rw [hee, hext]
  rw [show collect_extended_enums (collect_extensions r) =
      (collect_extensions r).foldl (fun m p => processExt m p.1 p.2) [] from rfl]
  rw [(slookup_extfold g (collect_extensions r) [] (by simp)).1]
  rw [show slookup g ([] : SMap ExtensionEnum) = Option.none from rfl]
  exact foldl_addContribs_none g (collect_extensions r)

/-- An enumerant extending VkFormat via an explicit Value target. -/
def enA : Enum := ⟨"VK_FORMAT_A", EnumSpec.Value "1000157000" (some "VkFormat")⟩

/-- An enumerant extending VkFormat via an Offset payload. -/
def enB : Enum := ⟨"VK_FORMAT_B", EnumSpec.Offset 0 (some 1) "VkFormat" false⟩

/-- Extension "VK_A", contributing `enA` to VkFormat. -/
def extA : Extension := ⟨"VK_A", [ExtensionChild.require [InterfaceItem.enum enA]]⟩

/-- Extension "VK_B", contributing `enB` to VkFormat. -/
def extB : Extension := ⟨"VK_B", [ExtensionChild.require [InterfaceItem.enum enB]]⟩

/-- Registry with the two extensions physically in reverse name order. -/
def regW9 : Registry := ⟨[RegistryChild.extensions [extB, extA]]⟩

/-- The context built from `regW9`: extensions indexed in sorted order, and a
single VkFormat aggregate holding both contributions, "VK_A" first. -/
def ctxW9 : Context :=
  ⟨regW9, [("VK_A", extA), ("VK_B", extB)], [], [], [],
    [("VkFormat", ⟨"VK_A", [enA, enB]⟩)]⟩

/-- Witness for C9: two extensions both extending VkFormat yield one
aggregate holding both entries in sorted extension order, represented by the
first contributor "VK_A" even though "VK_B" appears first physically. -/
theorem extension_enum_aggregation_spec_witness :
    ctxW9.extension_by_name.Pairwise keyLt ∧
    slookup "VkFormat" ctxW9.extension_enums = some ⟨"VK_A", [enA, enB]⟩ := by
  have h := extension_enum_aggregation_spec regW9 ctxW9 outEffects "VkFormat" rfl
  refine ⟨h.1, ?_⟩
  rw [h.2]
  rfl

/-! ### C1 — determinism and sorted iteration -/

/-- A registry declaring the vendor tags "NV" then "KHR". -/
def rexTags : Registry := ⟨[RegistryChild.tags [⟨"NV"⟩, ⟨"KHR"⟩]]⟩

/-- C1 counterexample: `Context.tags` is a `HashSet`, which guarantees no
iteration order (per-instance random hash seed). On a registry declaring tags
"NV" and "KHR", both ["NV","KHR"] and ["KHR","NV"] are possible iteration
orders of the built tag set; they differ, and the first is not in sorted key
order — so Tags iteration is neither sorted nor reproducible, refuting the
claimed sorted, build-independent iteration for every index. -/
theorem tags_iteration_not_sorted_counterexample :
    ((from_registry rexTags).toOption.map fun p => p.1.tags) = some ["NV", "KHR"] ∧
    hashIterPossible ["NV", "KHR"] ["NV", "KHR"] ∧
    hashIterPossible ["NV", "KHR"] ["KHR", "NV"] ∧
    (["NV", "KHR"] : List String) ≠ ["KHR", "NV"] ∧
    ¬ List.Pairwise strLt ["NV", "KHR"] := by
  refine ⟨rfl, List.Perm.refl _, List.Perm.swap "NV" "KHR" [], by decide, ?_⟩
  intro h
  have := (List.pairwise_cons.mp h).1 "KHR" (List.mem_cons_self _ _)
  exact absurd this (by decide)

/-- C1 (amended): two successful builds from input trees that differ only in
the physical order of equivalent top-level nodes (the children lists are
permutations of each other and declared names are unique per index) produce
identical contents and identical iteration order for the Extension, Type,
EnumGroup and ExtensionEnumAggregate indices, each of which iterates in
sorted-key order; the Tags index has identical contents as a set, but it is
hash-based and its iteration order is neither sorted nor deterministic (see
the counterexample). -/
theorem context_build_deterministic_sorted
    (r1 r2 : Registry) (c1 c2 : Context) (e1 e2 : List Effect)
    (hperm : r1.children.Perm r2.children)
    (hext : ((r1.children.flatMap extPairsOf).map Prod.fst).Nodup)
    (hen : ((r1.children.flatMap enumPairsOf).map Prod.fst).Nodup)
    (h1 : from_registry r1 = Except.ok (c1, e1))
    (h2 : from_registry r2 = Except.ok (c2, e2)) :
    (c1.extension_by_name = c2.extension_by_name ∧
     c1.type_by_name = c2.type_by_name ∧
     c1.enums_by_name = c2.enums_by_name ∧
     c1.extension_enums = c2.extension_enums ∧
     (∀ t, t ∈ c1.tags ↔ t ∈ c2.tags)) ∧
    (c1.extension_by_name.Pairwise keyLt ∧
     c1.enums_by_name.Pairwise keyLt ∧
     c1.type_by_name.Pairwise keyLt ∧
     c1.extension_enums.Pairwise keyLt) := by
  obtain ⟨-, hext1, hty1, hen1, htag1, hee1, -⟩ := from_registry_ok h1
  obtain ⟨-, hext2, hty2, hen2, htag2, hee2, -⟩ := from_registry_ok h2
  have hpext : (r1.children.flatMap extPairsOf).Perm (r2.children.flatMap extPairsOf) :=
    perm_flatMap extPairsOf hperm
  have hpen : (r1.children.flatMap enumPairsOf).Perm (r2.children.flatMap enumPairsOf) :=
    perm_flatMap enumPairsOf hperm
  have hExtEq : collect_extensions r1 = collect_extensions r2 := by
    rw [collect_extensions_eq, collect_extensions_eq]
    exact foldl_insPair_eq_of_perm _ _ hpext hext
  have hv1 : c1.enums_by_name = (r1.children.flatMap enumPairsOf).foldl insPair [] :=
    collect_enums_aux_ok_eq r1.children [] c1.enums_by_name hen1
  have hv2 : c2.enums_by_name = (r2.children.flatMap enumPairsOf).foldl insPair [] :=
    collect_enums_aux_ok_eq r2.children [] c2.enums_by_name hen2
  have hEnEq : c1.enums_by_name = c2.enums_by_name := by
    rw [hv1, hv2]
    exact foldl_insPair_eq_of_perm _ _ hpen hen
  refine ⟨⟨?_, ?_, hEnEq, ?_, ?_⟩, ?_, ?_, ?_, ?_⟩
  · rw [hext1, hext2, hExtEq]
  · rw [hty1, hty2]
  · rw [hee1, hee2, hExtEq]
  · intro t
    rw [htag1, htag2, mem_collect_tags, mem_collect_tags]
    exact (perm_flatMap tagNamesOf hperm).mem_iff
  · rw [hext1, collect_extensions_eq]
    exact foldl_insPair_sorted _ [] (by simp)
  · rw [hv1]
    exact foldl_insPair_sorted _ [] (by simp)
  · rw [hty1]
    simp
  · rw [hee1]
    exact (slookup_extfold "" (collect_extensions r1) [] (by simp)).2

/-- A small extension used by the C1 witness. -/
def extW : Extension := ⟨"VK_W", []⟩

/-- A small named enum group used by the C1 witness. -/
def enumsW : Enums := ⟨some "VkFormat", some "enum", []⟩

/-- Registry with one tag, one enum group and one extension. -/
def regW1 : Registry :=
  ⟨[RegistryChild.tags [⟨"KHR"⟩], RegistryChild.enums enumsW,
    RegistryChild.extensions [extW]]⟩

/-- The context built from `regW1`. -/
def ctxW1 : Context :=
  ⟨regW1, [("VK_W", extW)], [], [("VkFormat", enumsW)], ["KHR"], []⟩

/-- Witness for C1's amended theorem at `regW1` against itself (the identity
permutation). -/
theorem context_build_deterministic_sorted_witness :
    (ctxW1.extension_by_name = ctxW1.extension_by_name ∧
     ctxW1.type_by_name = ctxW1.type_by_name ∧
     ctxW1.enums_by_name = ctxW1.enums_by_name ∧
     ctxW1.extension_enums = ctxW1.extension_enums ∧
     (∀ t, t ∈ ctxW1.tags ↔ t ∈ ctxW1.tags)) ∧
    (ctxW1.extension_by_name.Pairwise keyLt ∧
     ctxW1.enums_by_name.Pairwise keyLt ∧
     ctxW1.type_by_name.Pairwise keyLt ∧
     ctxW1.extension_enums.Pairwise keyLt) :=
  context_build_deterministic_sorted regW1 regW1 ctxW1 ctxW1 outEffects outEffects
    (List.Perm.refl _) (by decide) (by decide) rfl rfl
